import Mathlib

/-!
Verification of the batch BLS signature-verification engine of this repository
(`runBlsWorkReq` and its helpers) against its natural-language specification.

Shallow embedding notes.
* `WorkRequestSet` is opaque to the engine, so it is a type parameter `S`.
* The external primitive `asyncVerifySets` is a parameter
  `V : List S → Except E Bool`: `Except.ok v` models a resolved promise with
  value `v`, `Except.error e` models a thrown / rejected error of type `E`.
* JavaScript array assignment `results[idx] = v` (which can leave holes and
  extends the array as needed) is modelled by `jsSet` on `List (Option _)`;
  the engine's sequence of assignments is collected as a log of
  `(idx, value)` pairs (batch-phase assignments first, individual-phase
  assignments after, exactly in program order) and replayed by `replay`.
* The `process.hrtime` timestamps of `BlsWorkResult` are ambient wall-clock
  readings irrelevant to every claim and are omitted from the embedding.
-/

namespace BlsVerify

/-- `WorkResult<boolean>`: tagged union, `{code: success, result}` or
`{code: error, error}`. -/
inductive WorkResult (E : Type) : Type where
  | success (result : Bool)
  | error (e : E)
deriving DecidableEq, Repr

/-- `{batchable: boolean}` options carried by a work request. -/
structure WorkOpts where
  batchable : Bool
deriving DecidableEq, Repr

/-- `BlsWorkReq`: a job, a list of signature sets plus options. -/
structure BlsWorkReq (S : Type) where
  opts : WorkOpts
  sets : List S
deriving DecidableEq, Repr

/-- An `{idx, sets}` record as pushed onto `batchableSets` /
`nonBatchableSets`: a job's sets together with its original index. -/
structure SetItem (S : Type) where
  idx : Nat
  sets : List S
deriving DecidableEq, Repr

/-- `BATCHABLE_MIN_PER_CHUNK = 16`. -/
def BATCHABLE_MIN_PER_CHUNK : Nat := 16

/-- The splitting loop of `runBlsWorkReq` starting at index `i`: routes each
request into the batchable (first) or non-batchable (second) stream,
preserving original indices and input order. -/
def splitSetsAux {S : Type} : Nat → List (BlsWorkReq S) → List (SetItem S) × List (SetItem S)
  | _, [] => ([], [])
  | i, r :: rs =>
    let rest := splitSetsAux (i + 1) rs
    if r.opts.batchable then (⟨i, r.sets⟩ :: rest.1, rest.2)
    else (rest.1, ⟨i, r.sets⟩ :: rest.2)

/-- The splitting loop of `runBlsWorkReq` (`for i in 0..len`): returns
`(batchableSets, nonBatchableSets)`. -/
def splitSets {S : Type} (reqs : List (BlsWorkReq S)) : List (SetItem S) × List (SetItem S) :=
  splitSetsAux 0 reqs

/-- Total weight of a chunk: the sum of `sets.length` over its items. -/
def itemsWeight {S : Type} (c : List (SetItem S)) : Nat :=
  (c.map fun it => it.sets.length).sum

/-- Modelled from the spec: worker of `chunkifyMaximizeChunkSize`, which is
imported from `utils.js` and is not part of this source slice. Per spec
section 4.2, chunks are formed greedily by consuming items in order: start a
chunk (`cur`), accumulate items until its weight reaches `minPerChunk`, close
the chunk, start the next; a non-empty tail below the threshold forms one
final undersized chunk. Items are never split. -/
def chunkifyGo {S : Type} (minPerChunk : Nat) (cur : List (SetItem S)) :
    List (SetItem S) → List (List (SetItem S))
  | [] => if cur.isEmpty then [] else [cur]
  | it :: rest =>
    if minPerChunk ≤ itemsWeight (cur ++ [it]) then
      (cur ++ [it]) :: chunkifyGo minPerChunk [] rest
    else chunkifyGo minPerChunk (cur ++ [it]) rest

/-- Modelled from the spec: `chunkifyMaximizeChunkSize` (imported from
`utils.js`, absent from this slice), per spec section 4.2. -/
def chunkifyMaximizeChunkSize {S : Type} (items : List (SetItem S)) (minPerChunk : Nat) :
    List (List (SetItem S)) :=
  chunkifyGo minPerChunk [] items

/-- Convert a primitive outcome into the recorded `WorkResult`, exactly as the
individual-verification loop does: `ok v ↦ {code: success, result: v}`,
thrown `e ↦ {code: error, error: e}`. -/
def resultOf {E : Type} (r : Except E Bool) : WorkResult E :=
  match r with
  | .ok v => .success v
  | .error e => .error e

/-- `allSets`: concatenation of all sets of a chunk, preserving order. -/
def chunkSets {S : Type} (c : List (SetItem S)) : List S :=
  (c.map fun it => it.sets).flatten

/-- Whether the batch call on a chunk succeeds: the primitive resolves with
`true` (both `ok false` and a thrown error are batch failure). -/
def isBatchSuccess {S E : Type} (V : List S → Except E Bool) (c : List (SetItem S)) : Bool :=
  match V (chunkSets c) with
  | .ok true => true
  | _ => false

/-- Accumulated effect of the chunk loop of `runBlsWorkReq`. -/
structure BatchPhaseOut (S E : Type) where
  batchRetries : Nat
  batchSigsSuccess : Nat
  log : List (Nat × WorkResult E)
  demoted : List (SetItem S)
deriving Repr

/-- The chunk loop of `runBlsWorkReq`: for each chunk, call the primitive on
the concatenated sets; on `ok true` record `{code: success, result: true}` for
every job of the chunk (in chunk order) and add the chunk's set count to
`batchSigsSuccess`; on `ok false` or a thrown error increment `batchRetries`
and append the chunk's items to the non-batchable stream (`demoted`). -/
def batchPhase {S E : Type} (V : List S → Except E Bool) :
    List (List (SetItem S)) → BatchPhaseOut S E
  | [] => ⟨0, 0, [], []⟩
  | c :: cs =>
    let rest := batchPhase V cs
    match V (chunkSets c) with
    | .ok true =>
        ⟨rest.batchRetries, itemsWeight c + rest.batchSigsSuccess,
          (c.map fun it => (it.idx, WorkResult.success true)) ++ rest.log, rest.demoted⟩
    | .ok false =>
        ⟨rest.batchRetries + 1, rest.batchSigsSuccess, rest.log, c ++ rest.demoted⟩
    | .error _ =>
        ⟨rest.batchRetries + 1, rest.batchSigsSuccess, rest.log, c ++ rest.demoted⟩

/-- The individual-verification loop of `runBlsWorkReq`: each item gets
`resultOf` of the primitive applied to its own sets, in stream order. -/
def individualPhase {S E : Type} (V : List S → Except E Bool) (items : List (SetItem S)) :
    List (Nat × WorkResult E) :=
  items.map fun it => (it.idx, resultOf (V it.sets))

/-- JavaScript array assignment `l[i] = v` on an array modelled with explicit
holes: in-bounds assignment replaces, out-of-bounds assignment pads with
holes (`none`) up to `i` and appends. -/
def jsSet {A : Type} (l : List (Option A)) (i : Nat) (v : A) : List (Option A) :=
  if i < l.length then l.set i (some v)
  else l ++ List.replicate (i - l.length) none ++ [some v]

/-- Replay a sequence of `results[idx] = v` assignments on an initially empty
array. -/
def replay {A : Type} (log : List (Nat × A)) : List (Option A) :=
  log.foldl (fun acc p => jsSet acc p.1 p.2) []

/-- `BlsWorkResult` (timestamps omitted, see module comment). -/
structure BlsWorkResult (E : Type) where
  batchRetries : Nat
  batchSigsSuccess : Nat
  results : List (Option (WorkResult E))
deriving Repr

/-- The chunks formed by `runBlsWorkReq`: `chunkifyMaximizeChunkSize` on the
batchable stream, guarded by `if (batchableSets.length > 0)`. -/
def chunksOf {S : Type} (reqs : List (BlsWorkReq S)) : List (List (SetItem S)) :=
  let b := (splitSets reqs).1
  if 0 < b.length then chunkifyMaximizeChunkSize b BATCHABLE_MIN_PER_CHUNK else []

/-- Outcome of the whole chunk loop of `runBlsWorkReq` on a request. -/
def batchOut {S E : Type} (V : List S → Except E Bool) (reqs : List (BlsWorkReq S)) :
    BatchPhaseOut S E :=
  batchPhase V (chunksOf reqs)

/-- Batch-phase assignment log of `runBlsWorkReq` (program order). -/
def batchLogOf {S E : Type} (V : List S → Except E Bool) (reqs : List (BlsWorkReq S)) :
    List (Nat × WorkResult E) :=
  (batchOut V reqs).log

/-- Items demoted to the non-batchable stream by failed chunks, in the order
the chunks failed. -/
def demotedOf {S E : Type} (V : List S → Except E Bool) (reqs : List (BlsWorkReq S)) :
    List (SetItem S) :=
  (batchOut V reqs).demoted

/-- The non-batchable stream at the start of the individual loop: the
originally non-batchable items (pushed by the splitting loop) followed by the
items `push`ed by failed chunks. -/
def indivItemsOf {S E : Type} (V : List S → Except E Bool) (reqs : List (BlsWorkReq S)) :
    List (SetItem S) :=
  (splitSets reqs).2 ++ demotedOf V reqs

/-- Individual-phase assignment log of `runBlsWorkReq` (program order). -/
def indivLogOf {S E : Type} (V : List S → Except E Bool) (reqs : List (BlsWorkReq S)) :
    List (Nat × WorkResult E) :=
  individualPhase V (indivItemsOf V reqs)

/-- The full `results[idx] = v` assignment log of `runBlsWorkReq`: batch-phase
assignments happen during the chunk loop, individual-phase assignments after. -/
def fullLogOf {S E : Type} (V : List S → Except E Bool) (reqs : List (BlsWorkReq S)) :
    List (Nat × WorkResult E) :=
  batchLogOf V reqs ++ indivLogOf V reqs

/-- The original indices of the jobs verified individually, in the order the
individual loop processes them. -/
def individualOrderOf {S E : Type} (V : List S → Except E Bool) (reqs : List (BlsWorkReq S)) :
    List Nat :=
  (indivItemsOf V reqs).map SetItem.idx

/-- `runBlsWorkReq`: split, chunk, batch-verify with fallback, individually
verify the rest, and return metrics plus the assembled results array. -/
def runBlsWorkReq {S E : Type} (V : List S → Except E Bool) (reqs : List (BlsWorkReq S)) :
    BlsWorkResult E :=
  { batchRetries := (batchOut V reqs).batchRetries
    batchSigsSuccess := (batchOut V reqs).batchSigsSuccess
    results := replay (fullLogOf V reqs) }

/-! ### Lemmas about the JavaScript array model -/

theorem length_jsSet {A : Type} (l : List (Option A)) (i : Nat) (v : A) :
    (jsSet l i v).length = max l.length (i + 1) := by
  unfold jsSet
  split
  · simp only [List.length_set]
    omega
  · simp only [List.length_append, List.length_replicate, List.length_cons, List.length_nil]
    omega

theorem getElem?_jsSet_self {A : Type} (l : List (Option A)) (i : Nat) (v : A) :
    (jsSet l i v)[i]? = some (some v) := by
  unfold jsSet
  by_cases h : i < l.length
  · rw [if_pos h, List.getElem?_set_self h]
  · rw [if_neg h, List.append_assoc, List.getElem?_append_right (by omega)]
    rw [List.getElem?_append_right (by simp only [List.length_replicate]; omega)]
    simp only [List.length_replicate]
    have hz : i - l.length - (i - l.length) = 0 := by omega
    rw [hz]
    rfl

theorem getElem?_jsSet_ne {A : Type} (l : List (Option A)) (i j : Nat) (v : A) (x : Option A)
    (hne : j ≠ i) (hx : l[j]? = some x) : (jsSet l i v)[j]? = some x := by
  have hj : j < l.length := by
    by_contra hc
    rw [List.getElem?_eq_none (by omega)] at hx
    exact Option.noConfusion hx
  unfold jsSet
  split
  · rw [List.getElem?_set_ne (by omega)]
    exact hx
  · rw [List.append_assoc, List.getElem?_append_left hj]
    exact hx

theorem foldl_jsSet_length {A : Type} (log : List (Nat × A)) :
    ∀ acc : List (Option A),
      (log.foldl (fun a p => jsSet a p.1 p.2) acc).length =
        log.foldl (fun m p => max m (p.1 + 1)) acc.length := by
  induction log with
  | nil => intro acc; rfl
  | cons p rest ih =>
    intro acc
    simp only [List.foldl_cons]
    rw [ih, length_jsSet]

theorem foldl_jsSet_preserve {A : Type} (log : List (Nat × A)) :
    ∀ (acc : List (Option A)) (i : Nat) (x : Option A),
      i ∉ log.map Prod.fst → acc[i]? = some x →
      (log.foldl (fun a p => jsSet a p.1 p.2) acc)[i]? = some x := by
  induction log with
  | nil => intro acc i x _ hx; exact hx
  | cons p rest ih =>
    intro acc i x hni hx
    simp only [List.map_cons, List.mem_cons] at hni
    push_neg at hni
    simp only [List.foldl_cons]
    exact ih _ i x hni.2 (getElem?_jsSet_ne acc p.1 i p.2 x hni.1 hx)

/-- A `max`-style fold over permuted lists of indices agrees. -/
theorem foldl_max_perm (l1 l2 : List Nat) (h : List.Perm l1 l2) :
    ∀ m : Nat, l1.foldl (fun m i => max m (i + 1)) m = l2.foldl (fun m i => max m (i + 1)) m := by
  induction h with
  | nil => intro m; rfl
  | cons x _ ih => intro m; simp only [List.foldl_cons]; exact ih _
  | swap x y l =>
    intro m
    simp only [List.foldl_cons]
    have : max (max m (y + 1)) (x + 1) = max (max m (x + 1)) (y + 1) := by omega
    rw [this]
  | trans _ _ ih1 ih2 => intro m; rw [ih1, ih2]

theorem foldl_max_range (n : Nat) :
    ∀ m : Nat, (List.range n).foldl (fun m i => max m (i + 1)) m = max m n := by
  induction n with
  | zero => intro m; simp
  | succ k ih =>
    intro m
    rw [List.range_succ, List.foldl_append, ih]
    simp only [List.foldl_cons, List.foldl_nil]
    omega

/-- If the assigned indices are a permutation of `range n`, the replayed array
has length exactly `n`. -/
theorem length_replay_of_perm_range {A : Type} (log : List (Nat × A)) (n : Nat)
    (h : List.Perm (log.map Prod.fst) (List.range n)) :
    (replay log).length = n := by
  unfold replay
  rw [foldl_jsSet_length]
  have hfold : log.foldl (fun m p => max m (p.1 + 1)) 0 =
      (log.map Prod.fst).foldl (fun m i => max m (i + 1)) 0 := by
    rw [List.foldl_map]
  rw [List.length_nil, hfold, foldl_max_perm _ _ h, foldl_max_range]
  omega

/-- Replaying a log whose indices are distinct stores each entry at its own
index. -/
theorem replay_getElem?_of_mem {A : Type} (log : List (Nat × A)) (i : Nat) (v : A)
    (hmem : (i, v) ∈ log) (hnd : (log.map Prod.fst).Nodup) :
    (replay log)[i]? = some (some v) := by
  obtain ⟨s, t, rfl⟩ := List.append_of_mem hmem
  have hni : i ∉ t.map Prod.fst := by
    rw [List.map_append, List.map_cons] at hnd
    have := (List.nodup_append.mp hnd).2.1
    simp only [List.nodup_cons] at this
    exact this.1
  unfold replay
  rw [List.foldl_append, List.foldl_cons]
  exact foldl_jsSet_preserve t _ i (some v) hni (getElem?_jsSet_self _ i v)

/-! ### Lemmas about the chunker -/

theorem chunkifyGo_flatten {S : Type} (m : Nat) (l : List (SetItem S)) :
    ∀ cur : List (SetItem S), (chunkifyGo m cur l).flatten = cur ++ l := by
  induction l with
  | nil =>
    intro cur
    unfold chunkifyGo
    by_cases h : cur.isEmpty
    · rw [if_pos h, List.isEmpty_iff.mp h]
      rfl
    · rw [if_neg h]
      simp
  | cons it rest ih =>
    intro cur
    unfold chunkifyGo
    by_cases h : m ≤ itemsWeight (cur ++ [it])
    · rw [if_pos h]
      simp only [List.flatten_cons, ih []]
      simp
    · rw [if_neg h, ih (cur ++ [it])]
      simp

theorem chunkifyGo_dropLast_weight {S : Type} (m : Nat) (l : List (SetItem S)) :
    ∀ (cur : List (SetItem S)) (c : List (SetItem S)),
      c ∈ (chunkifyGo m cur l).dropLast → m ≤ itemsWeight c := by
  induction l with
  | nil =>
    intro cur c hc
    unfold chunkifyGo at hc
    by_cases h : cur.isEmpty
    · rw [if_pos h] at hc
      simp at hc
    · rw [if_neg h] at hc
      simp at hc
  | cons it rest ih =>
    intro cur c hc
    unfold chunkifyGo at hc
    by_cases h : m ≤ itemsWeight (cur ++ [it])
    · rw [if_pos h] at hc
      rcases hrest : chunkifyGo m ([] : List (SetItem S)) rest with _ | ⟨c2, cs2⟩
      · rw [hrest] at hc
        simp at hc
      · rw [hrest, List.dropLast_cons₂, List.mem_cons] at hc
        rcases hc with rfl | hc
        · exact h
        · exact ih [] c (by rw [hrest]; exact hc)
    · rw [if_neg h] at hc
      exact ih (cur ++ [it]) c hc

/-! ### Characterization of the splitting loop -/

theorem splitSetsAux_eq {S : Type} (reqs : List (BlsWorkReq S)) :
    ∀ k : Nat,
      splitSetsAux k reqs =
        (((reqs.enumFrom k).filter fun p => p.2.opts.batchable).map
            fun p => ⟨p.1, p.2.sets⟩,
          ((reqs.enumFrom k).filter fun p => !p.2.opts.batchable).map
            fun p => ⟨p.1, p.2.sets⟩) := by
  induction reqs with
  | nil => intro k; rfl
  | cons r rs ih =>
    intro k
    unfold splitSetsAux
    by_cases h : r.opts.batchable
    · simp [ih (k + 1), List.filter_cons, h]
    · simp [ih (k + 1), List.filter_cons, h]

theorem splitSets_eq {S : Type} (reqs : List (BlsWorkReq S)) :
    splitSets reqs =
      ((reqs.enum.filter fun p => p.2.opts.batchable).map fun p => ⟨p.1, p.2.sets⟩,
        (reqs.enum.filter fun p => !p.2.opts.batchable).map fun p => ⟨p.1, p.2.sets⟩) :=
  splitSetsAux_eq reqs 0

theorem splitSets_idx_perm {S : Type} (reqs : List (BlsWorkReq S)) :
    List.Perm ((splitSets reqs).1.map SetItem.idx ++ (splitSets reqs).2.map SetItem.idx)
      (List.range reqs.length) := by
  rw [splitSets_eq]
  simp only [List.map_map]
  have hfst : ∀ l : List (Nat × BlsWorkReq S),
      l.map ((fun it : SetItem S => it.idx) ∘ fun p : Nat × BlsWorkReq S =>
        (⟨p.1, p.2.sets⟩ : SetItem S)) = l.map Prod.fst := by
    intro l
    apply List.map_congr_left
    intro p _
    rfl
  rw [hfst, hfst, ← List.map_append]
  have hperm := List.filter_append_perm (fun p : Nat × BlsWorkReq S => p.2.opts.batchable) reqs.enum
  have := hperm.map Prod.fst
  refine this.trans ?_
  rw [List.enum_eq_enumFrom, List.enumFrom_map_fst, List.range_eq_range']

/-- Every item produced by the splitting loop carries the sets of the request
at its recorded index, and the batchable stream holds exactly the batchable
requests. -/
theorem mem_splitSets_fst {S : Type} (reqs : List (BlsWorkReq S)) (it : SetItem S)
    (h : it ∈ (splitSets reqs).1) :
    ∃ r : BlsWorkReq S, reqs[it.idx]? = some r ∧ it.sets = r.sets ∧ r.opts.batchable = true := by
  rw [splitSets_eq] at h
  simp only [List.mem_map, List.mem_filter] at h
  obtain ⟨p, ⟨hmem, hbat⟩, rfl⟩ := h
  rw [List.enum_eq_enumFrom] at hmem
  refine ⟨p.2, ?_, rfl, hbat⟩
  have := List.mk_mem_enumFrom_iff_le_and_getElem?_sub.mp (by simpa using hmem)
  simpa using this.2

theorem mem_splitSets_snd {S : Type} (reqs : List (BlsWorkReq S)) (it : SetItem S)
    (h : it ∈ (splitSets reqs).2) :
    ∃ r : BlsWorkReq S, reqs[it.idx]? = some r ∧ it.sets = r.sets ∧ r.opts.batchable = false := by
  rw [splitSets_eq] at h
  simp only [List.mem_map, List.mem_filter, Bool.not_eq_true'] at h
  obtain ⟨p, ⟨hmem, hbat⟩, rfl⟩ := h
  rw [List.enum_eq_enumFrom] at hmem
  refine ⟨p.2, ?_, rfl, hbat⟩
  have := List.mk_mem_enumFrom_iff_le_and_getElem?_sub.mp (by simpa using hmem)
  simpa using this.2

/-! ### Characterization of the chunk loop -/

theorem batchPhase_eq {S E : Type} (V : List S → Except E Bool)
    (cs : List (List (SetItem S))) :
    batchPhase V cs =
      ⟨(cs.filter fun c => !isBatchSuccess V c).length,
        ((cs.filter (isBatchSuccess V)).map itemsWeight).sum,
        ((cs.filter (isBatchSuccess V)).map
          fun c => c.map fun it => (it.idx, WorkResult.success true)).flatten,
        (cs.filter fun c => !isBatchSuccess V c).flatten⟩ := by
  induction cs with
  | nil => rfl
  | cons c rest ih =>
    unfold batchPhase
    rcases h : V (chunkSets c) with e | b
    · have hs : isBatchSuccess V c = false := by unfold isBatchSuccess; rw [h]
      simp [ih, List.filter_cons, hs]
    · rcases b with _ | _
      · have hs : isBatchSuccess V c = false := by unfold isBatchSuccess; rw [h]
        simp [ih, List.filter_cons, hs]
      · have hs : isBatchSuccess V c = true := by unfold isBatchSuccess; rw [h]
        simp [ih, List.filter_cons, hs]

theorem batchPhase_log_demoted_idx_perm {S E : Type} (V : List S → Except E Bool)
    (cs : List (List (SetItem S))) :
    List.Perm ((batchPhase V cs).log.map Prod.fst ++ (batchPhase V cs).demoted.map SetItem.idx)
      (cs.flatten.map SetItem.idx) := by
  rw [batchPhase_eq]
  simp only [List.map_flatten, List.map_map]
  have hfun : (List.map Prod.fst ∘ fun c : List (SetItem S) =>
        c.map fun it => ((it.idx, WorkResult.success true) : Nat × WorkResult E)) =
      List.map SetItem.idx := by
    funext c
    simp only [Function.comp_apply, List.map_map]
    rfl
  rw [hfun, ← List.flatten_append, ← List.map_append]
  have hperm := List.filter_append_perm (isBatchSuccess V) cs
  exact (hperm.map fun c => c.map SetItem.idx).flatten

theorem chunksOf_flatten {S : Type} (reqs : List (BlsWorkReq S)) :
    (chunksOf reqs).flatten = (splitSets reqs).1 := by
  unfold chunksOf
  by_cases h : 0 < (splitSets reqs).1.length
  · rw [if_pos h]
    exact chunkifyGo_flatten BATCHABLE_MIN_PER_CHUNK _ []
  · rw [if_neg h]
    have hnil : (splitSets reqs).1 = [] := List.length_eq_zero.mp (by omega)
    rw [hnil]
    rfl

/-! ### The full assignment log -/

theorem indivLogOf_map_fst {S E : Type} (V : List S → Except E Bool)
    (reqs : List (BlsWorkReq S)) :
    (indivLogOf V reqs).map Prod.fst = (indivItemsOf V reqs).map SetItem.idx := by
  unfold indivLogOf individualPhase
  rw [List.map_map]
  rfl

/-- The indices assigned by `runBlsWorkReq` are exactly `0, …, n-1`, each
exactly once. -/
theorem fullLogOf_fst_perm {S E : Type} (V : List S → Except E Bool)
    (reqs : List (BlsWorkReq S)) :
    List.Perm ((fullLogOf V reqs).map Prod.fst) (List.range reqs.length) := by
  unfold fullLogOf
  rw [List.map_append, indivLogOf_map_fst]
  unfold indivItemsOf
  rw [List.map_append]
  have step1 : List.Perm
      ((batchLogOf V reqs).map Prod.fst ++
        ((splitSets reqs).2.map SetItem.idx ++ (demotedOf V reqs).map SetItem.idx))
      ((batchLogOf V reqs).map Prod.fst ++
        ((demotedOf V reqs).map SetItem.idx ++ (splitSets reqs).2.map SetItem.idx)) :=
    List.Perm.append_left _ (List.perm_append_comm)
  refine step1.trans ?_
  rw [← List.append_assoc]
  have step2 : List.Perm
      ((batchLogOf V reqs).map Prod.fst ++ (demotedOf V reqs).map SetItem.idx)
      ((splitSets reqs).1.map SetItem.idx) := by
    have := batchPhase_log_demoted_idx_perm V (chunksOf reqs)
    rw [chunksOf_flatten] at this
    exact this
  exact (step2.append_right _).trans (splitSets_idx_perm reqs)

theorem fullLogOf_fst_nodup {S E : Type} (V : List S → Except E Bool)
    (reqs : List (BlsWorkReq S)) : ((fullLogOf V reqs).map Prod.fst).Nodup :=
  (fullLogOf_fst_perm V reqs).nodup_iff.mpr (List.nodup_range reqs.length)

/-- Every logged assignment `(i, v)` ends up, untouched, at index `i` of the
final results array. -/
theorem results_of_log_mem {S E : Type} (V : List S → Except E Bool)
    (reqs : List (BlsWorkReq S)) (i : Nat) (v : WorkResult E)
    (h : (i, v) ∈ fullLogOf V reqs) :
    (runBlsWorkReq V reqs).results[i]? = some (some v) :=
  replay_getElem?_of_mem _ i v h (fullLogOf_fst_nodup V reqs)

theorem results_length {S E : Type} (V : List S → Except E Bool)
    (reqs : List (BlsWorkReq S)) :
    (runBlsWorkReq V reqs).results.length = reqs.length :=
  length_replay_of_perm_range _ _ (fullLogOf_fst_perm V reqs)

/-- Master lemma for the individual phase: every individually verified item
gets exactly the per-job verdict of the primitive on its own sets. -/
theorem results_of_indiv_mem {S E : Type} (V : List S → Except E Bool)
    (reqs : List (BlsWorkReq S)) (it : SetItem S)
    (h : it ∈ indivItemsOf V reqs) :
    (runBlsWorkReq V reqs).results[it.idx]? = some (some (resultOf (V it.sets))) := by
  apply results_of_log_mem
  unfold fullLogOf
  apply List.mem_append_right
  unfold indivLogOf individualPhase
  exact List.mem_map.mpr ⟨it, h, rfl⟩

/-! ### Claim theorems -/

/-- C1: for every input array of work requests, `runBlsWorkReq` returns a
results array of the same length as the input; the assigned indices are
exactly `0, …, n-1`, each assigned exactly once; each logged verdict lands at
its own job's index; and no index is assigned by both the batch-success path
and the individual-verification path. -/
theorem claim_C1 {S E : Type} (V : List S → Except E Bool) (reqs : List (BlsWorkReq S)) :
    (runBlsWorkReq V reqs).results.length = reqs.length ∧
    List.Perm ((fullLogOf V reqs).map Prod.fst) (List.range reqs.length) ∧
    (∀ p ∈ fullLogOf V reqs, (runBlsWorkReq V reqs).results[p.1]? = some (some p.2)) ∧
    (∀ i, i ∈ (batchLogOf V reqs).map Prod.fst → i ∉ (indivLogOf V reqs).map Prod.fst) := by
  refine ⟨results_length V reqs, fullLogOf_fst_perm V reqs, ?_, ?_⟩
  · intro p hp
    exact results_of_log_mem V reqs p.1 p.2 hp
  · intro i hb
    have hnd := fullLogOf_fst_nodup V reqs
    unfold fullLogOf at hnd
    rw [List.map_append] at hnd
    exact (List.nodup_append.mp hnd).2.2 hb

/-- C1 witness: a concrete two-job request (one batchable, one not) with an
always-true primitive; job 1's individually produced verdict sits at index 1. -/
theorem claim_C1_witness :
    (runBlsWorkReq (fun _ : List Nat => (Except.ok true : Except Unit Bool))
        [⟨⟨true⟩, [1]⟩, ⟨⟨false⟩, [2]⟩]).results[1]? =
      some (some (WorkResult.success true)) :=
  (claim_C1 (fun _ : List Nat => (Except.ok true : Except Unit Bool))
      [⟨⟨true⟩, [1]⟩, ⟨⟨false⟩, [2]⟩]).2.2.1
    (1, WorkResult.success true) (by decide)

/-- C2: on every request, `batchRetries` counts exactly the chunks whose batch
verification returned `false` or threw; the batch phase logs results only for
succeeded chunks; every item of each failed chunk is appended to the
non-batchable stream; no demoted item's index is assigned in the batch phase;
and each demoted job's final result is exactly what per-job verification of
its own sets produces. -/
theorem claim_C2 {S E : Type} (V : List S → Except E Bool) (reqs : List (BlsWorkReq S)) :
    (runBlsWorkReq V reqs).batchRetries =
      ((chunksOf reqs).filter fun c => !isBatchSuccess V c).length ∧
    batchLogOf V reqs =
      (((chunksOf reqs).filter (isBatchSuccess V)).map
        fun c => c.map fun it => (it.idx, WorkResult.success true)).flatten ∧
    demotedOf V reqs = ((chunksOf reqs).filter fun c => !isBatchSuccess V c).flatten ∧
    (∀ it ∈ demotedOf V reqs, it.idx ∉ (batchLogOf V reqs).map Prod.fst) ∧
    (∀ it ∈ demotedOf V reqs,
      (runBlsWorkReq V reqs).results[it.idx]? = some (some (resultOf (V it.sets)))) := by
  refine ⟨?_, ?_, ?_, ?_, ?_⟩
  · show (batchOut V reqs).batchRetries = _
    rw [batchOut, batchPhase_eq]
  · rw [batchLogOf, batchOut, batchPhase_eq]
  · rw [demotedOf, batchOut, batchPhase_eq]
  · intro it hit hmem
    have hnd := fullLogOf_fst_nodup V reqs
    unfold fullLogOf at hnd
    rw [List.map_append] at hnd
    refine (List.nodup_append.mp hnd).2.2 hmem ?_
    rw [indivLogOf_map_fst]
    unfold indivItemsOf
    exact List.mem_map.mpr ⟨it, List.mem_append_right _ hit, rfl⟩
  · intro it hit
    exact results_of_indiv_mem V reqs it (List.mem_append_right _ hit)

/-- C2 witness: a single batchable job whose batch fails with `ok false`; it
is demoted and its final result is the per-job verdict `Success{false}`. -/
theorem claim_C2_witness :
    (runBlsWorkReq (fun _ : List Nat => (Except.ok false : Except Unit Bool))
        [⟨⟨true⟩, [5]⟩]).results[0]? =
      some (some (WorkResult.success false)) :=
  (claim_C2 (fun _ : List Nat => (Except.ok false : Except Unit Bool))
      [⟨⟨true⟩, [5]⟩]).2.2.2.2 ⟨0, [5]⟩ (by decide)

/-- C3: (chunker modelled from the spec, the source of
`chunkifyMaximizeChunkSize` is outside this slice) the concatenation of the
produced chunks equals the input list — so items are never split and order is
preserved — and every chunk except possibly the last has total weight at
least `BATCHABLE_MIN_PER_CHUNK = 16`. -/
theorem claim_C3 {S : Type} (items : List (SetItem S)) :
    (chunkifyMaximizeChunkSize items BATCHABLE_MIN_PER_CHUNK).flatten = items ∧
    ∀ c ∈ (chunkifyMaximizeChunkSize items BATCHABLE_MIN_PER_CHUNK).dropLast,
      BATCHABLE_MIN_PER_CHUNK ≤ itemsWeight c :=
  ⟨chunkifyGo_flatten _ items [],
    fun c hc => chunkifyGo_dropLast_weight _ items [] c hc⟩

/-- C3 witness: two items of weights 16 and 1 form two chunks; the non-final
chunk meets the threshold. -/
theorem claim_C3_witness :
    BATCHABLE_MIN_PER_CHUNK ≤
      itemsWeight [(⟨0, List.replicate 16 (0 : Nat)⟩ : SetItem Nat)] :=
  (claim_C3 [⟨0, List.replicate 16 (0 : Nat)⟩, ⟨1, [0]⟩]).2
    [⟨0, List.replicate 16 (0 : Nat)⟩] (by decide)

/-- C5: for every job verified in the individual phase, a primitive answer
`ok false` (cryptographically invalid) is recorded as `Success{false}`, never
as `Error`; a thrown error is recorded as `Error` for that job only — every
other individually verified job still receives its own verdict — and the
request completes with a full-length results array. -/
theorem claim_C5 {S E : Type} (V : List S → Except E Bool) (reqs : List (BlsWorkReq S))
    (it : SetItem S) (h : it ∈ indivItemsOf V reqs) :
    (V it.sets = Except.ok false →
      (runBlsWorkReq V reqs).results[it.idx]? = some (some (WorkResult.success false))) ∧
    (∀ e : E, V it.sets = Except.error e →
      (runBlsWorkReq V reqs).results[it.idx]? = some (some (WorkResult.error e))) ∧
    (∀ it2 ∈ indivItemsOf V reqs,
      (runBlsWorkReq V reqs).results[it2.idx]? = some (some (resultOf (V it2.sets)))) ∧
    (runBlsWorkReq V reqs).results.length = reqs.length := by
  have hm := results_of_indiv_mem V reqs it h
  refine ⟨fun hf => ?_, fun e he => ?_, fun it2 h2 => results_of_indiv_mem V reqs it2 h2,
    results_length V reqs⟩
  · rw [hf] at hm
    exact hm
  · rw [he] at hm
    exact hm

/-- C5 witness: two non-batchable jobs; the primitive throws on job 1's sets
and answers `ok false` on job 0's sets; job 0 is recorded `Success{false}`. -/
theorem claim_C5_witness :
    (runBlsWorkReq
        (fun l : List Nat => if l = [2] then (Except.error () : Except Unit Bool)
          else Except.ok false)
        [⟨⟨false⟩, [1]⟩, ⟨⟨false⟩, [2]⟩]).results[0]? =
      some (some (WorkResult.success false)) :=
  (claim_C5
      (fun l : List Nat => if l = [2] then (Except.error () : Except Unit Bool)
        else Except.ok false)
      [⟨⟨false⟩, [1]⟩, ⟨⟨false⟩, [2]⟩] ⟨0, [1]⟩ (by decide)).1 rfl

/-- C6: the returned `batchSigsSuccess` equals the total set count of the
chunks whose batch verification succeeded; failed chunks contribute nothing,
whatever their individual retries later produce. -/
theorem claim_C6 {S E : Type} (V : List S → Except E Bool) (reqs : List (BlsWorkReq S)) :
    (runBlsWorkReq V reqs).batchSigsSuccess =
      (((chunksOf reqs).filter (isBatchSuccess V)).map itemsWeight).sum := by
  show (batchOut V reqs).batchSigsSuccess = _
  rw [batchOut, batchPhase_eq]

/-- C7 counterexample: one non-batchable job (index 0) and one batchable job
(index 1) whose chunk fails. The code verifies index 0 before the demoted
index 1, so the individual order is not demoted-first as claimed. -/
theorem claim_C7_counterexample :
    individualOrderOf (fun _ : List Nat => (Except.ok false : Except Unit Bool))
        [⟨⟨false⟩, [1]⟩, ⟨⟨true⟩, [2]⟩] ≠
      (demotedOf (fun _ : List Nat => (Except.ok false : Except Unit Bool))
          [⟨⟨false⟩, [1]⟩, ⟨⟨true⟩, [2]⟩]).map SetItem.idx ++
        ((splitSets [(⟨⟨false⟩, [1]⟩ : BlsWorkReq Nat), ⟨⟨true⟩, [2]⟩]).2).map SetItem.idx := by
  decide

/-- C7 amended: within one request, individual verifications are performed in
this order — first the jobs that were already non-batchable, in original-index
order, and then the jobs demoted from failed chunks, in the order the chunks
failed. -/
theorem claim_C7_amended {S E : Type} (V : List S → Except E Bool)
    (reqs : List (BlsWorkReq S)) :
    individualOrderOf V reqs =
      ((reqs.enum.filter fun p => !p.2.opts.batchable).map Prod.fst) ++
        (((chunksOf reqs).filter fun c => !isBatchSuccess V c).flatten).map SetItem.idx := by
  unfold individualOrderOf indivItemsOf
  rw [List.map_append]
  congr 1
  · rw [splitSets_eq]
    simp only [List.map_map]
    rfl
  · show (demotedOf V reqs).map SetItem.idx = _
    rw [demotedOf, batchOut, batchPhase_eq]

/-- C8: `runBlsWorkReq` is deterministic — two runs on identical input arrays
(with the primitive a function of its input) produce equal results arrays and
equal `batchRetries` and `batchSigsSuccess`. -/
theorem claim_C8 {S E : Type} (V : List S → Except E Bool)
    (reqs1 reqs2 : List (BlsWorkReq S)) (h : reqs1 = reqs2) :
    (runBlsWorkReq V reqs1).results = (runBlsWorkReq V reqs2).results ∧
    (runBlsWorkReq V reqs1).batchRetries = (runBlsWorkReq V reqs2).batchRetries ∧
    (runBlsWorkReq V reqs1).batchSigsSuccess = (runBlsWorkReq V reqs2).batchSigsSuccess := by
  subst h
  exact ⟨rfl, rfl, rfl⟩

/-- C8 witness: determinism at a concrete input. -/
theorem claim_C8_witness :
    (runBlsWorkReq (fun _ : List Nat => (Except.ok true : Except Unit Bool))
        [⟨⟨true⟩, [3]⟩]).results =
      (runBlsWorkReq (fun _ : List Nat => (Except.ok true : Except Unit Bool))
        [⟨⟨true⟩, [3]⟩]).results :=
  (claim_C8 (fun _ : List Nat => (Except.ok true : Except Unit Bool))
      [⟨⟨true⟩, [3]⟩] [⟨⟨true⟩, [3]⟩] rfl).1

/-- C9: the batch phase only ever logs the verdict `Success{true}`; every
logged verdict other than `Success{true}` comes from the individual phase. -/
theorem claim_C9 {S E : Type} (V : List S → Except E Bool) (reqs : List (BlsWorkReq S)) :
    (∀ p ∈ batchLogOf V reqs, p.2 = WorkResult.success true) ∧
    (∀ p ∈ fullLogOf V reqs, p.2 ≠ WorkResult.success true → p ∈ indivLogOf V reqs) := by
  have hb : ∀ p ∈ batchLogOf V reqs, p.2 = WorkResult.success true := by
    intro p hp
    rw [batchLogOf, batchOut, batchPhase_eq] at hp
    simp only [List.mem_flatten, List.mem_map] at hp
    obtain ⟨l, ⟨c, _, rfl⟩, hpl⟩ := hp
    obtain ⟨it, _, rfl⟩ := List.mem_map.mp hpl
    rfl
  refine ⟨hb, fun p hp hne => ?_⟩
  rw [fullLogOf, List.mem_append] at hp
  rcases hp with hp | hp
  · exact absurd (hb p hp) hne
  · exact hp

/-- C9 witness: with an always-false primitive, the batchable job's chunk
fails and its `Success{false}` verdict is logged by the individual phase. -/
theorem claim_C9_witness :
    ((0 : Nat), WorkResult.success false) ∈
      indivLogOf (fun _ : List Nat => (Except.ok false : Except Unit Bool)) [⟨⟨true⟩, [1]⟩] :=
  (claim_C9 (fun _ : List Nat => (Except.ok false : Except Unit Bool)) [⟨⟨true⟩, [1]⟩]).2
    (0, WorkResult.success false) (by decide) (by decide)

/-- C10: when every job has `batchable = false`, no chunk is formed, the
metrics are `batchRetries = 0` and `batchSigsSuccess = 0`, and every job is
verified individually, its result being the per-job verdict on its own sets. -/
theorem claim_C10 {S E : Type} (V : List S → Except E Bool) (reqs : List (BlsWorkReq S))
    (h : ∀ r ∈ reqs, r.opts.batchable = false) :
    chunksOf reqs = [] ∧
    (runBlsWorkReq V reqs).batchRetries = 0 ∧
    (runBlsWorkReq V reqs).batchSigsSuccess = 0 ∧
    (∀ i, i < reqs.length → ∃ r : BlsWorkReq S, reqs[i]? = some r ∧
      (runBlsWorkReq V reqs).results[i]? = some (some (resultOf (V r.sets)))) := by
  have hb : (splitSets reqs).1 = [] := by
    rw [splitSets_eq]
    have hfil : reqs.enum.filter (fun p => p.2.opts.batchable) = [] := by
      rw [List.filter_eq_nil_iff]
      intro p hp
      rcases p with ⟨i, r⟩
      have hmem := List.mk_mem_enumFrom_iff_le_and_getElem?_sub.mp
        (by simpa [List.enum_eq_enumFrom] using hp)
      have hr : r ∈ reqs := List.getElem?_mem (by simpa using hmem.2)
      simp [h r hr]
    rw [hfil]
    rfl
  have hch : chunksOf reqs = [] := by
    unfold chunksOf
    rw [hb]
    simp
  have hdem : demotedOf V reqs = [] := by
    rw [demotedOf, batchOut, hch]
    rfl
  have hbl : batchLogOf V reqs = [] := by
    rw [batchLogOf, batchOut, hch]
    rfl
  refine ⟨hch, ?_, ?_, ?_⟩
  · show (batchOut V reqs).batchRetries = 0
    rw [batchOut, hch]
    rfl
  · show (batchOut V reqs).batchSigsSuccess = 0
    rw [batchOut, hch]
    rfl
  · intro i hi
    have hifull : i ∈ (fullLogOf V reqs).map Prod.fst :=
      (fullLogOf_fst_perm V reqs).mem_iff.mpr (List.mem_range.mpr hi)
    rw [fullLogOf, List.map_append, hbl] at hifull
    simp only [List.map_nil, List.nil_append] at hifull
    rw [indivLogOf_map_fst] at hifull
    unfold indivItemsOf at hifull
    rw [hdem, List.append_nil] at hifull
    obtain ⟨it, hitmem, hidx⟩ := List.mem_map.mp hifull
    obtain ⟨r, hr2, hsets, _⟩ := mem_splitSets_snd reqs it hitmem
    refine ⟨r, by rw [← hidx]; exact hr2, ?_⟩
    have hres := results_of_indiv_mem V reqs it
      (by unfold indivItemsOf; rw [hdem, List.append_nil]; exact hitmem)
    rw [hidx, hsets] at hres
    exact hres

/-- C10 witness: a single non-batchable job with an always-true primitive. -/
theorem claim_C10_witness :
    ∃ r : BlsWorkReq Nat,
      ([(⟨⟨false⟩, [4]⟩ : BlsWorkReq Nat)])[0]? = some r ∧
      (runBlsWorkReq (fun _ : List Nat => (Except.ok true : Except Unit Bool))
        [⟨⟨false⟩, [4]⟩]).results[0]? = some (some (resultOf (Except.ok true))) := by
  have := (claim_C10 (fun _ : List Nat => (Except.ok true : Except Unit Bool))
      [⟨⟨false⟩, [4]⟩] (by decide)).2.2.2 0 (by decide)
  exact this

/-- C4: for a request of exactly 17 batchable jobs each carrying one set that
the primitive accepts, the chunker produces exactly two chunks of weights 16
and 1, both batches succeed, and the metrics are `batchSigsSuccess = 17` and
`batchRetries = 0`. -/
theorem claim_C4 {S E : Type} (V : List S → Except E Bool) (reqs : List (BlsWorkReq S))
    (hlen : reqs.length = 17)
    (hjob : ∀ r ∈ reqs, r.opts.batchable = true ∧ r.sets.length = 1)
    (hvalid : ∀ l : List S, V l = Except.ok true) :
    (chunksOf reqs).map itemsWeight = [16, 1] ∧
    (runBlsWorkReq V reqs).batchSigsSuccess = 17 ∧
    (runBlsWorkReq V reqs).batchRetries = 0 := by
  obtain ⟨a0, reqs, rfl⟩ := List.exists_of_length_succ reqs (show reqs.length = 16 + 1 by omega)
  rw [List.length_cons] at hlen
  obtain ⟨a1, reqs, rfl⟩ := List.exists_of_length_succ reqs (show reqs.length = 15 + 1 by omega)
  rw [List.length_cons] at hlen
  obtain ⟨a2, reqs, rfl⟩ := List.exists_of_length_succ reqs (show reqs.length = 14 + 1 by omega)
  rw [List.length_cons] at hlen
  obtain ⟨a3, reqs, rfl⟩ := List.exists_of_length_succ reqs (show reqs.length = 13 + 1 by omega)
  rw [List.length_cons] at hlen
  obtain ⟨a4, reqs, rfl⟩ := List.exists_of_length_succ reqs (show reqs.length = 12 + 1 by omega)
  rw [List.length_cons] at hlen
  obtain ⟨a5, reqs, rfl⟩ := List.exists_of_length_succ reqs (show reqs.length = 11 + 1 by omega)
  rw [List.length_cons] at hlen
  obtain ⟨a6, reqs, rfl⟩ := List.exists_of_length_succ reqs (show reqs.length = 10 + 1 by omega)
  rw [List.length_cons] at hlen
  obtain ⟨a7, reqs, rfl⟩ := List.exists_of_length_succ reqs (show reqs.length = 9 + 1 by omega)
  rw [List.length_cons] at hlen
  obtain ⟨a8, reqs, rfl⟩ := List.exists_of_length_succ reqs (show reqs.length = 8 + 1 by omega)
  rw [List.length_cons] at hlen
  obtain ⟨a9, reqs, rfl⟩ := List.exists_of_length_succ reqs (show reqs.length = 7 + 1 by omega)
  rw [List.length_cons] at hlen
  obtain ⟨a10, reqs, rfl⟩ := List.exists_of_length_succ reqs (show reqs.length = 6 + 1 by omega)
  rw [List.length_cons] at hlen
  obtain ⟨a11, reqs, rfl⟩ := List.exists_of_length_succ reqs (show reqs.length = 5 + 1 by omega)
  rw [List.length_cons] at hlen
  obtain ⟨a12, reqs, rfl⟩ := List.exists_of_length_succ reqs (show reqs.length = 4 + 1 by omega)
  rw [List.length_cons] at hlen
  obtain ⟨a13, reqs, rfl⟩ := List.exists_of_length_succ reqs (show reqs.length = 3 + 1 by omega)
  rw [List.length_cons] at hlen
  obtain ⟨a14, reqs, rfl⟩ := List.exists_of_length_succ reqs (show reqs.length = 2 + 1 by omega)
  rw [List.length_cons] at hlen
  obtain ⟨a15, reqs, rfl⟩ := List.exists_of_length_succ reqs (show reqs.length = 1 + 1 by omega)
  rw [List.length_cons] at hlen
  obtain ⟨a16, reqs, rfl⟩ := List.exists_of_length_succ reqs (show reqs.length = 0 + 1 by omega)
  rw [List.length_cons] at hlen
  have hnil : reqs = [] := List.length_eq_zero.mp (by omega)
  subst hnil
  have hb0 := hjob a0 (by simp); have hb1 := hjob a1 (by simp)
  have hb2 := hjob a2 (by simp); have hb3 := hjob a3 (by simp)
  have hb4 := hjob a4 (by simp); have hb5 := hjob a5 (by simp)
  have hb6 := hjob a6 (by simp); have hb7 := hjob a7 (by simp)
  have hb8 := hjob a8 (by simp); have hb9 := hjob a9 (by simp)
  have hb10 := hjob a10 (by simp); have hb11 := hjob a11 (by simp)
  have hb12 := hjob a12 (by simp); have hb13 := hjob a13 (by simp)
  have hb14 := hjob a14 (by simp); have hb15 := hjob a15 (by simp)
  have hb16 := hjob a16 (by simp)
  have hchunks :
      chunksOf [a0, a1, a2, a3, a4, a5, a6, a7, a8, a9, a10, a11, a12, a13, a14, a15, a16] =
        [[⟨0, a0.sets⟩, ⟨1, a1.sets⟩, ⟨2, a2.sets⟩, ⟨3, a3.sets⟩, ⟨4, a4.sets⟩, ⟨5, a5.sets⟩,
          ⟨6, a6.sets⟩, ⟨7, a7.sets⟩, ⟨8, a8.sets⟩, ⟨9, a9.sets⟩, ⟨10, a10.sets⟩, ⟨11, a11.sets⟩,
          ⟨12, a12.sets⟩, ⟨13, a13.sets⟩, ⟨14, a14.sets⟩, ⟨15, a15.sets⟩],
          [⟨16, a16.sets⟩]] := by
    simp [chunksOf, splitSets, splitSetsAux, chunkifyMaximizeChunkSize, BATCHABLE_MIN_PER_CHUNK,
      chunkifyGo, itemsWeight, hb0.1, hb1.1, hb2.1, hb3.1, hb4.1, hb5.1, hb6.1, hb7.1, hb8.1,
      hb9.1, hb10.1, hb11.1, hb12.1, hb13.1, hb14.1, hb15.1, hb16.1, hb0.2, hb1.2, hb2.2,
      hb3.2, hb4.2, hb5.2, hb6.2, hb7.2, hb8.2, hb9.2, hb10.2, hb11.2, hb12.2, hb13.2, hb14.2,
      hb15.2, hb16.2]
  refine ⟨?_, ?_, ?_⟩
  · rw [hchunks]
    simp [itemsWeight, hb0.2, hb1.2, hb2.2, hb3.2, hb4.2, hb5.2, hb6.2, hb7.2, hb8.2, hb9.2,
      hb10.2, hb11.2, hb12.2, hb13.2, hb14.2, hb15.2, hb16.2]
  · show (batchOut V _).batchSigsSuccess = 17
    rw [batchOut, hchunks]
    simp [batchPhase, hvalid, itemsWeight, hb0.2, hb1.2, hb2.2, hb3.2, hb4.2, hb5.2, hb6.2,
      hb7.2, hb8.2, hb9.2, hb10.2, hb11.2, hb12.2, hb13.2, hb14.2, hb15.2, hb16.2]
  · show (batchOut V _).batchRetries = 0
    rw [batchOut, hchunks]
    simp [batchPhase, hvalid]

/-- C4 witness: 17 identical batchable one-set jobs with an always-true
primitive. -/
theorem claim_C4_witness :
    (runBlsWorkReq (fun _ : List Nat => (Except.ok true : Except Unit Bool))
        (List.replicate 17 ⟨⟨true⟩, [0]⟩)).batchSigsSuccess = 17 :=
  (claim_C4 (fun _ : List Nat => (Except.ok true : Except Unit Bool))
      (List.replicate 17 ⟨⟨true⟩, [0]⟩) (by decide) (by decide) (fun _ => rfl)).2.1

end BlsVerify
